import Mathlib

/-!
Verification of the Progress Tracking Engine of the JobFlow repository:
a shallow embedding of `achievement_service.py` and `streak_service.py`
(achievement evaluation, streak calculation, motivation messages and the
progress snapshot), together with proofs of the specified properties.

Dates are modelled as integers (days since an arbitrary epoch), so that
`timedelta(days = 1)` becomes `+ 1`.  Counter values are natural numbers.
-/

/-- A snapshot of the per-user counters queried at the start of
`AchievementService.check_and_unlock_achievements`. -/
structure Counters where
  total_applications : Nat
  total_interviews : Nat
  total_offers : Nat
  today_applications : Nat
  current_streak : Nat
deriving DecidableEq

/-- One `Achievement` row: the catalog data (`achievement_type`,
`criteria_value`) together with the mutable per-user progress state.
Display metadata (title, description, icon, category, rarity) is opaque to
the algorithm and omitted. -/
structure Rule where
  achievement_type : String
  criteria_value : Nat
  current_progress : Nat
  unlocked : Bool
  unlocked_at : Option Nat
deriving DecidableEq

/-- Default row used by positional `List.getD` access. -/
def defaultRule : Rule :=
  { achievement_type := "", criteria_value := 0, current_progress := 0,
    unlocked := false, unlocked_at := none }

/-- The `new_progress` computed by the `if/elif` chain in the loop body of
`check_and_unlock_achievements`; an unrecognised `achievement_type` keeps
the initial value `0`. -/
def newProgress (c : Counters) (t : String) : Nat :=
  if t = "application_count" then c.total_applications
  else if t = "streak" then c.current_streak
  else if t = "interview_count" then c.total_interviews
  else if t = "offer_count" then c.total_offers
  else if t = "daily_applications" then c.today_applications
  else if t = "consistency" then c.current_streak
  else 0

/-- The `should_unlock` flag computed by the same `if/elif` chain; an
unrecognised `achievement_type` keeps the initial value `False`. -/
def shouldUnlock (c : Counters) (t : String) (v : Nat) : Bool :=
  if t = "application_count" then decide (v ≤ c.total_applications)
  else if t = "streak" then decide (v ≤ c.current_streak)
  else if t = "interview_count" then decide (v ≤ c.total_interviews)
  else if t = "offer_count" then decide (v ≤ c.total_offers)
  else if t = "daily_applications" then decide (v ≤ c.today_applications)
  else if t = "consistency" then decide (v ≤ c.current_streak)
  else false

/-- The six `achievement_type` strings handled by the evaluator's
`if/elif` chain. -/
def knownKinds : List String :=
  ["application_count", "streak", "interview_count", "offer_count",
   "daily_applications", "consistency"]

/-- Effect of one evaluation pass on a single row.  The SQL query in
`check_and_unlock_achievements` selects only rows with `unlocked == False`,
so an unlocked row is not touched at all; a selected row gets
`current_progress := new_progress` and, when `should_unlock`, is marked
unlocked with `unlocked_at` stamped to the evaluation time `now`. -/
def evalRule (c : Counters) (now : Nat) (r : Rule) : Rule :=
  if r.unlocked then r
  else if shouldUnlock c r.achievement_type r.criteria_value then
    { r with current_progress := newProgress c r.achievement_type,
             unlocked := true, unlocked_at := some now }
  else
    { r with current_progress := newProgress c r.achievement_type }

/-- The evaluation loop of `check_and_unlock_achievements` over the list of
rows, carrying the positional index `i`; returns the updated rows together
with the indices of the rows appended to `newly_unlocked`, in loop order. -/
def evaluateAux (c : Counters) (now : Nat) : List Rule → Nat → List Rule × List Nat
  | [], _ => ([], [])
  | r :: rs, i =>
    let rest := evaluateAux c now rs (i + 1)
    if r.unlocked then (r :: rest.1, rest.2)
    else if shouldUnlock c r.achievement_type r.criteria_value then
      ({ r with current_progress := newProgress c r.achievement_type,
                unlocked := true, unlocked_at := some now } :: rest.1,
       i :: rest.2)
    else
      ({ r with current_progress := newProgress c r.achievement_type } :: rest.1,
       rest.2)

/-- One full evaluation pass: `check_and_unlock_achievements` restricted to
its pure core — updated rows plus the `newly_unlocked` indices. -/
def evaluate (c : Counters) (now : Nat) (rows : List Rule) : List Rule × List Nat :=
  evaluateAux c now rows 0

/-- A sequence of evaluator passes, each with its counter snapshot and
evaluation timestamp, applied left to right. -/
def runPasses (ps : List (Counters × Nat)) (rows : List Rule) : List Rule :=
  ps.foldl (fun s p => (evaluate p.1 p.2 s).1) rows

/-- The `(type, value)` pairs of `AchievementService.ACHIEVEMENT_DEFINITIONS`
(display metadata omitted). -/
def ACHIEVEMENT_DEFINITIONS : List (String × Nat) :=
  [("application_count", 1), ("application_count", 5), ("application_count", 10),
   ("application_count", 25), ("application_count", 50), ("application_count", 100),
   ("application_count", 200), ("application_count", 500),
   ("streak", 1), ("streak", 3), ("streak", 7), ("streak", 14), ("streak", 30),
   ("streak", 60), ("streak", 100),
   ("interview_count", 1), ("interview_count", 5), ("interview_count", 10),
   ("consistency", 7), ("consistency", 30),
   ("offer_count", 1), ("offer_count", 3),
   ("daily_applications", 5), ("daily_applications", 10)]

theorem evaluateAux_fst (c : Counters) (now : Nat) :
    ∀ (s : List Rule) (i : Nat), (evaluateAux c now s i).1 = s.map (evalRule c now) := by
  intro s
  induction s with
  | nil => intro i; rfl
  | cons r rs ih =>
    intro i
    simp only [evaluateAux, List.map, evalRule]
    by_cases hu : r.unlocked
    · simp [hu, ih]
    · by_cases hs : shouldUnlock c r.achievement_type r.criteria_value
      · simp [hu, hs, ih]
      · simp [hu, hs, ih]

theorem evaluate_fst (c : Counters) (now : Nat) (s : List Rule) :
    (evaluate c now s).1 = s.map (evalRule c now) :=
  evaluateAux_fst c now s 0

/-- A `Streak` row restricted to what the algorithms read: the calendar
date (days since an epoch) and the `goal_met` flag. -/
def isMet (records : List (Int × Bool)) (d : Int) : Bool :=
  records.any (fun r => r.1 = d && r.2)

/-- Number of goal-met records dated on or before `d`; the termination
measure of the backward walk of `calculate_current_streak`. -/
def metCountLe (records : List (Int × Bool)) (d : Int) : Nat :=
  (records.filter (fun r => r.2 && decide (r.1 ≤ d))).length

theorem metCountLe_mono (records : List (Int × Bool)) {d e : Int} (h : d ≤ e) :
    metCountLe records d ≤ metCountLe records e := by
  induction records with
  | nil => simp [metCountLe]
  | cons r rs ih =>
    simp only [metCountLe, List.filter_cons] at *
    by_cases h1 : r.2 && decide (r.1 ≤ d)
    · have h2 : (r.2 && decide (r.1 ≤ e)) = true := by
        simp only [Bool.and_eq_true, decide_eq_true_eq] at h1 ⊢
        exact ⟨h1.1, le_trans h1.2 h⟩
      simp [h1, h2]; exact ih
    · by_cases h2 : r.2 && decide (r.1 ≤ e)
      · simp [h1, h2]; exact Nat.le_succ_of_le ih
      · simp [h1, h2]; exact ih

theorem metCountLe_lt (records : List (Int × Bool)) {d : Int} (h : isMet records d = true) :
    metCountLe records (d - 1) < metCountLe records d := by
  induction records with
  | nil => simp [isMet] at h
  | cons r rs ih =>
    simp only [isMet, List.any_cons, Bool.or_eq_true, Bool.and_eq_true,
      decide_eq_true_eq] at h
    simp only [metCountLe, List.filter_cons]
    rcases h with ⟨hd, hm⟩ | h
    · have h1 : (r.2 && decide (r.1 ≤ d)) = true := by simp [hm, hd]
      have h2 : (r.2 && decide (r.1 ≤ d - 1)) = false := by simp [hm, hd]
      simp [h1, h2]
      exact Nat.lt_succ_of_le (metCountLe_mono rs (by omega))
    · have ihh := ih h
      by_cases h1 : r.2 && decide (r.1 ≤ d - 1)
      · have h2 : (r.2 && decide (r.1 ≤ d)) = true := by
          simp only [Bool.and_eq_true, decide_eq_true_eq] at h1 ⊢
          exact ⟨h1.1, by omega⟩
        simp [h1, h2]; unfold metCountLe at ihh; omega
      · by_cases h2 : r.2 && decide (r.1 ≤ d)
        · simp [h1, h2]; unfold metCountLe at ihh; omega
        · simp [h1, h2]; exact ihh

/-- The `while True` loop of `StreakService.calculate_current_streak`:
starting at day `d`, count consecutive days with a goal-met record, walking
backward one day at a time and stopping at the first day without one. -/
def currentStreakFrom (records : List (Int × Bool)) (d : Int) : Nat :=
  if isMet records d then currentStreakFrom records (d - 1) + 1 else 0
termination_by metCountLe records d
decreasing_by exact metCountLe_lt records (by assumption)

/-- `StreakService.calculate_current_streak`: the backward walk started at
`today` (`date.today()` in the source). -/
def currentStreak (records : List (Int × Bool)) (today : Int) : Nat :=
  currentStreakFrom records today

/-- Number of loop-body executions of the `while True` loop of
`calculate_current_streak` (the final, breaking iteration included). -/
def currentStreakIters (records : List (Int × Bool)) (d : Int) : Nat :=
  if isMet records d then currentStreakIters records (d - 1) + 1 else 1
termination_by metCountLe records d
decreasing_by exact metCountLe_lt records (by assumption)

/-- Total number of goal-met records. -/
def metRecordCount (records : List (Int × Bool)) : Nat :=
  (records.filter (fun r => r.2)).length

/-- The dates of the goal-met records, in storage order: the query
`filter(user_id, goal_met == True)` of `calculate_longest_streak`. -/
def metDates (records : List (Int × Bool)) : List Int :=
  (records.filter (fun r => r.2)).map (fun r => r.1)

/-- The accumulator loop of `StreakService.calculate_longest_streak` over
the tail of the sorted goal-met date list: `prev` is the previous date,
`current` the length of the run ending at `prev`, `longest` the running
maximum. -/
def longestAux : List Int → Int → Nat → Nat → Nat
  | [], _, _, longest => longest
  | d :: ds, prev, current, longest =>
    if d = prev + 1 then longestAux ds d (current + 1) (max longest (current + 1))
    else longestAux ds d 1 longest

/-- `StreakService.calculate_longest_streak`: select the goal-met records,
sort them by date ascending (the query's `order_by(Streak.date)`), return 0
when there are none, otherwise run the accumulator loop with
`longest = current = 1` seeded from the first date. -/
def longestStreak (records : List (Int × Bool)) : Nat :=
  match List.insertionSort (· ≤ ·) (metDates records) with
  | [] => 0
  | d :: rest => longestAux rest d 1 1

/-- The five message categories of `StreakService.get_motivation_message`
(the `type` field of the returned dictionary). -/
inductive MsgType where
  | start
  | progress
  | goal_met
  | maintain_streak
  | celebration
deriving DecidableEq

/-- The `if/elif` chain of `StreakService.get_motivation_message`, reduced
to the selected message category.  `remaining = max(0, daily_goal -
today_apps)` is computed over the integers, as in the source. -/
def get_motivation_message (current_streak today_apps daily_goal : Nat) : MsgType :=
  if current_streak = 0 ∧ today_apps = 0 then MsgType.start
  else if current_streak = 0 ∧ today_apps > 0 then
    if max 0 ((daily_goal : Int) - (today_apps : Int)) = 0 then MsgType.goal_met
    else MsgType.progress
  else if current_streak > 0 ∧ today_apps < daily_goal then MsgType.maintain_streak
  else MsgType.celebration

/-- Modelled from the spec: the five-row decision table of §4.4, read top
to bottom with first match winning. -/
def motivationCategorySpec (s t g : Nat) : MsgType :=
  if s = 0 ∧ t = 0 then MsgType.start
  else if s = 0 ∧ t > 0 ∧ t < g then MsgType.progress
  else if s = 0 ∧ g ≤ t then MsgType.goal_met
  else if 0 < s ∧ t < g then MsgType.maintain_streak
  else MsgType.celebration

/-- The summary fields of the dictionary returned by
`AchievementService.get_user_achievements` (the per-category grouping is
display plumbing and omitted); `completion_percentage` is modelled over the
rationals. -/
structure Snapshot where
  total_achievements : Nat
  total_unlocked : Nat
  completion_percentage : ℚ
deriving DecidableEq

/-- The counting loop and the `completion_percentage` formula of
`AchievementService.get_user_achievements`: the guard
`if total_achievements > 0` protects the division, otherwise the
percentage is the literal `0`. -/
def get_user_achievements (achievements : List Rule) : Snapshot :=
  { total_achievements := achievements.length
    total_unlocked := (achievements.filter (fun a => a.unlocked)).length
    completion_percentage :=
      if achievements.length > 0 then
        ((achievements.filter (fun a => a.unlocked)).length : ℚ)
          / (achievements.length : ℚ) * 100
      else 0 }

theorem currentStreakFrom_eq (records : List (Int × Bool)) (d : Int) :
    currentStreakFrom records d =
      if isMet records d then currentStreakFrom records (d - 1) + 1 else 0 := by
  rw [currentStreakFrom]

theorem currentStreakIters_eq (records : List (Int × Bool)) (d : Int) :
    currentStreakIters records d =
      if isMet records d then currentStreakIters records (d - 1) + 1 else 1 := by
  rw [currentStreakIters]

theorem csf_chain (records : List (Int × Bool)) :
    ∀ (i : Nat) (d : Int), i < currentStreakFrom records d →
      isMet records (d - (i : Int)) = true := by
  intro i
  induction i with
  | zero =>
    intro d h
    by_cases hm : isMet records d = true
    · simpa using hm
    · rw [currentStreakFrom_eq] at h
      simp [hm] at h
  | succ i ih =>
    intro d h
    by_cases hm : isMet records d = true
    · rw [currentStreakFrom_eq, if_pos hm] at h
      have hi : i < currentStreakFrom records (d - 1) := by omega
      have := ih (d - 1) hi
      have harg : d - ((i : Int) + 1) = d - 1 - (i : Int) := by ring
      rw [show ((i + 1 : Nat) : Int) = (i : Int) + 1 by push_cast; ring, harg]
      exact this
    · rw [currentStreakFrom_eq] at h
      simp [hm] at h

theorem csf_stop_aux (records : List (Int × Bool)) :
    ∀ (n : Nat) (d : Int), metCountLe records d ≤ n →
      isMet records (d - (currentStreakFrom records d : Int)) = false := by
  intro n
  induction n with
  | zero =>
    intro d hn
    have hm : isMet records d = false := by
      by_contra hc
      have := metCountLe_lt records (by simpa using hc)
      omega
    rw [currentStreakFrom_eq, if_neg (by simp [hm])]
    simpa using hm
  | succ n ih =>
    intro d hn
    by_cases hm : isMet records d = true
    · have hlt := metCountLe_lt records hm
      have hle : metCountLe records (d - 1) ≤ n := by omega
      have := ih (d - 1) hle
      rw [currentStreakFrom_eq, if_pos hm]
      have harg : d - ((currentStreakFrom records (d - 1) + 1 : Nat) : Int) =
          d - 1 - ((currentStreakFrom records (d - 1) : Nat) : Int) := by
        push_cast; ring
      rw [harg]
      exact this
    · rw [currentStreakFrom_eq, if_neg hm]
      simpa using hm

theorem csf_stop (records : List (Int × Bool)) (d : Int) :
    isMet records (d - (currentStreakFrom records d : Int)) = false :=
  csf_stop_aux records (metCountLe records d) d le_rfl

theorem csf_le_metCountLe (records : List (Int × Bool)) :
    ∀ (n : Nat) (d : Int), metCountLe records d ≤ n →
      currentStreakFrom records d ≤ metCountLe records d := by
  intro n
  induction n with
  | zero =>
    intro d hn
    have hm : isMet records d = false := by
      by_contra hc
      have := metCountLe_lt records (by simpa using hc)
      omega
    rw [currentStreakFrom_eq, if_neg (by simp [hm])]
    omega
  | succ n ih =>
    intro d hn
    by_cases hm : isMet records d = true
    · have hlt := metCountLe_lt records hm
      have := ih (d - 1) (by omega)
      rw [currentStreakFrom_eq, if_pos hm]
      omega
    · rw [currentStreakFrom_eq, if_neg hm]
      omega

theorem metCountLe_le_metRecordCount (records : List (Int × Bool)) (d : Int) :
    metCountLe records d ≤ metRecordCount records := by
  induction records with
  | nil => simp [metCountLe, metRecordCount]
  | cons r rs ih =>
    simp only [metCountLe, metRecordCount, List.filter_cons] at *
    by_cases h2 : r.2 = true
    · by_cases h3 : r.1 ≤ d
      · simp [h2, h3]; exact ih
      · simp [h2, h3]; exact Nat.le_succ_of_le ih
    · simp [h2]; exact ih

theorem iters_eq_streak_succ (records : List (Int × Bool)) :
    ∀ (n : Nat) (d : Int), metCountLe records d ≤ n →
      currentStreakIters records d = currentStreakFrom records d + 1 := by
  intro n
  induction n with
  | zero =>
    intro d hn
    have hm : isMet records d = false := by
      by_contra hc
      have := metCountLe_lt records (by simpa using hc)
      omega
    rw [currentStreakIters_eq, currentStreakFrom_eq, if_neg (by simp [hm]),
      if_neg (by simp [hm])]
  | succ n ih =>
    intro d hn
    by_cases hm : isMet records d = true
    · have hlt := metCountLe_lt records hm
      rw [currentStreakIters_eq, currentStreakFrom_eq, if_pos hm, if_pos hm,
        ih (d - 1) (by omega)]
    · rw [currentStreakIters_eq, currentStreakFrom_eq, if_neg hm, if_neg hm]

theorem isMet_iff_mem_metDates (records : List (Int × Bool)) (x : Int) :
    isMet records x = true ↔ x ∈ metDates records := by
  simp only [isMet, metDates, List.any_eq_true, Bool.and_eq_true, decide_eq_true_eq,
    List.mem_map, List.mem_filter]
  constructor
  · rintro ⟨r, hr, h1, h2⟩
    exact ⟨r, ⟨hr, h2⟩, h1⟩
  · rintro ⟨r, ⟨hr, h2⟩, h1⟩
    exact ⟨r, hr, h1, h2⟩

theorem longestAux_ge_longest :
    ∀ (l : List Int) (prev : Int) (cur lng : Nat), lng ≤ longestAux l prev cur lng := by
  intro l
  induction l with
  | nil => intro prev cur lng; simp [longestAux]
  | cons x rest ih =>
    intro prev cur lng
    simp only [longestAux]
    by_cases hb : x = prev + 1
    · rw [if_pos hb]
      exact le_trans (le_max_left _ _) (ih x (cur + 1) (max lng (cur + 1)))
    · rw [if_neg hb]
      exact ih x 1 lng

theorem longestAux_chain_le :
    ∀ (l : List Int) (prev : Int) (cur lng k : Nat),
      l.Pairwise (· < ·) → (∀ y ∈ l, prev < y) → cur ≤ lng →
      (∀ i : Nat, i < k → prev + 1 + (i : Int) ∈ l) →
      cur + k ≤ longestAux l prev cur lng := by
  intro l
  induction l with
  | nil =>
    intro prev cur lng k _ _ hcl hchain
    match k with
    | 0 => simpa [longestAux] using hcl
    | k + 1 => exact absurd (hchain 0 (by omega)) (by simp)
  | cons x rest ih =>
    intro prev cur lng k hsort hgt hcl hchain
    match k with
    | 0 => simpa using le_trans hcl (longestAux_ge_longest _ _ _ _)
    | k + 1 =>
      have hx1 : prev + 1 ∈ x :: rest := by simpa using hchain 0 (by omega)
      have hxgt : prev < x := hgt x (List.mem_cons_self x rest)
      have hxeq : x = prev + 1 := by
        rcases List.mem_cons.mp hx1 with h | h
        · omega
        · have := (List.pairwise_cons.mp hsort).1 _ h
          omega
      simp only [longestAux, if_pos hxeq]
      have hchain' : ∀ i : Nat, i < k → x + 1 + (i : Int) ∈ rest := by
        intro i hik
        have hmem : prev + 1 + ((i + 1 : Nat) : Int) ∈ x :: rest := hchain (i + 1) (by omega)
        have harg : prev + 1 + ((i + 1 : Nat) : Int) = x + 1 + (i : Int) := by
          push_cast; omega
        rw [harg] at hmem
        rcases List.mem_cons.mp hmem with h | h
        · omega
        · exact h
      have := ih x (cur + 1) (max lng (cur + 1)) k
        (List.pairwise_cons.mp hsort).2
        (List.pairwise_cons.mp hsort).1
        (le_max_right _ _) hchain'
      omega

theorem longestAux_any_chain_le :
    ∀ (l : List Int) (prev d : Int) (cur lng k : Nat),
      l.Pairwise (· < ·) → (∀ y ∈ l, prev < y) → 1 ≤ cur → cur ≤ lng → 1 ≤ k →
      (∀ i : Nat, i < k → d + (i : Int) ∈ l) →
      k ≤ longestAux l prev cur lng := by
  intro l
  induction l with
  | nil =>
    intro prev d cur lng k _ _ _ _ hk hchain
    exact absurd (hchain 0 (by omega)) (by simp)
  | cons x rest ih =>
    intro prev d cur lng k hsort hgt hc1 hcl hk hchain
    have hd0 : d ∈ x :: rest := by simpa using hchain 0 (by omega)
    have hrest_sort := (List.pairwise_cons.mp hsort).2
    have hrest_gt := (List.pairwise_cons.mp hsort).1
    by_cases hdx : d = x
    · have key : ∀ cur' lng' : Nat, 1 ≤ cur' → cur' ≤ lng' →
          k ≤ longestAux rest x cur' lng' := by
        intro cur' lng' h1 h2
        have hchain' : ∀ i : Nat, i < k - 1 → x + 1 + (i : Int) ∈ rest := by
          intro i hik
          have hmem : d + ((i + 1 : Nat) : Int) ∈ x :: rest := hchain (i + 1) (by omega)
          have harg : d + ((i + 1 : Nat) : Int) = x + 1 + (i : Int) := by
            push_cast; omega
          rw [harg] at hmem
          rcases List.mem_cons.mp hmem with h | h
          · omega
          · exact h
        have := longestAux_chain_le rest x cur' lng' (k - 1) hrest_sort hrest_gt h2 hchain'
        omega
      simp only [longestAux]
      by_cases hb : x = prev + 1
      · rw [if_pos hb]
        exact key (cur + 1) (max lng (cur + 1)) (by omega) (le_max_right _ _)
      · rw [if_neg hb]
        exact key 1 lng (by omega) (by omega)
    · have hd_rest : d ∈ rest := by
        rcases List.mem_cons.mp hd0 with h | h
        · exact absurd h hdx
        · exact h
      have hxd : x < d := hrest_gt d hd_rest
      have hchain' : ∀ i : Nat, i < k → d + (i : Int) ∈ rest := by
        intro i hik
        have hmem := hchain i hik
        rcases List.mem_cons.mp hmem with h | h
        · omega
        · exact h
      simp only [longestAux]
      by_cases hb : x = prev + 1
      · rw [if_pos hb]
        exact ih x d (cur + 1) (max lng (cur + 1)) k hrest_sort hrest_gt
          (by omega) (le_max_right _ _) hk hchain'
      · rw [if_neg hb]
        exact ih x d 1 lng k hrest_sort hrest_gt (by omega) (by omega) hk hchain'

theorem longestAux_achieves (records : List (Int × Bool)) :
    ∀ (l : List Int) (prev : Int) (cur lng : Nat),
      (∀ y ∈ l, isMet records y = true) →
      (∀ i : Nat, i < cur → isMet records (prev - (i : Int)) = true) →
      (∃ e : Int, ∀ i : Nat, i < lng → isMet records (e + (i : Int)) = true) →
      ∃ e : Int, ∀ i : Nat, i < longestAux l prev cur lng →
        isMet records (e + (i : Int)) = true := by
  intro l
  induction l with
  | nil =>
    intro prev cur lng _ _ hlng
    simpa [longestAux] using hlng
  | cons x rest ih =>
    intro prev cur lng hmem hcur hlng
    have hxmet : isMet records x = true := hmem x (List.mem_cons_self x rest)
    have hmem' : ∀ y ∈ rest, isMet records y = true :=
      fun y hy => hmem y (List.mem_cons_of_mem x hy)
    simp only [longestAux]
    by_cases hb : x = prev + 1
    · rw [if_pos hb]
      apply ih x (cur + 1) (max lng (cur + 1)) hmem'
      · intro i hi
        match i with
        | 0 => simpa using hxmet
        | j + 1 =>
          have harg : x - ((j + 1 : Nat) : Int) = prev - (j : Int) := by
            push_cast; omega
          rw [harg]
          exact hcur j (by omega)
      · rcases le_or_lt (cur + 1) lng with hc | hc
        · rw [max_eq_left hc]; exact hlng
        · rw [max_eq_right (by omega)]
          refine ⟨x - (cur : Int), fun i hi => ?_⟩
          have harg : x - (cur : Int) + (i : Int) = x - ((cur - i : Nat) : Int) := by
            have : (( cur - i : Nat) : Int) = (cur : Int) - (i : Int) := by
              push_cast [Nat.cast_sub (by omega : i ≤ cur)]; ring
            omega
          rw [harg, hb]
          match hcuri : cur - i with
          | 0 =>
            have harg2 : prev + 1 - ((0 : Nat) : Int) = x := by rw [hb]; simp
            rw [harg2]; exact hxmet
          | j + 1 =>
            have harg2 : prev + 1 - ((j + 1 : Nat) : Int) = prev - (j : Int) := by
              push_cast; ring
            rw [harg2]
            exact hcur j (by omega)
    · rw [if_neg hb]
      apply ih x 1 lng hmem'
      · intro i hi
        match i with
        | 0 => simpa using hxmet
      · exact hlng

theorem mem_sortedMetDates (records : List (Int × Bool)) (x : Int) :
    x ∈ List.insertionSort (· ≤ ·) (metDates records) ↔ isMet records x = true := by
  rw [(List.perm_insertionSort (· ≤ ·) (metDates records)).mem_iff,
    isMet_iff_mem_metDates]

theorem sortedMetDates_strict (records : List (Int × Bool))
    (hnodup : (records.map (fun r => r.1)).Nodup) :
    (List.insertionSort (· ≤ ·) (metDates records)).Pairwise (· < ·) := by
  have hsubf : List.Sublist (records.filter (fun r => r.2)) records :=
    List.filter_sublist records
  have hsub : List.Sublist (metDates records) (records.map (fun r => r.1)) := by
    simp only [metDates]
    exact List.Sublist.map (fun r => r.1) hsubf
  have hnd : (metDates records).Nodup := hnodup.sublist hsub
  have hndS : (List.insertionSort (· ≤ ·) (metDates records)).Nodup :=
    ((List.perm_insertionSort (· ≤ ·) (metDates records)).nodup_iff).mpr hnd
  have hsorted : (List.insertionSort (· ≤ ·) (metDates records)).Pairwise (· ≤ ·) :=
    List.sorted_insertionSort (· ≤ ·) (metDates records)
  exact (hsorted.and hndS).imp (fun h => lt_of_le_of_ne h.1 h.2)

theorem longest_ge_chain (records : List (Int × Bool)) (d : Int) (k : Nat)
    (hnodup : (records.map (fun r => r.1)).Nodup)
    (hchain : ∀ i : Nat, i < k → isMet records (d + (i : Int)) = true) :
    k ≤ longestStreak records := by
  match k with
  | 0 => omega
  | k + 1 =>
    have hmemS : ∀ i : Nat, i < k + 1 →
        d + (i : Int) ∈ List.insertionSort (· ≤ ·) (metDates records) := by
      intro i hi
      exact (mem_sortedMetDates records _).mpr (hchain i hi)
    cases hS : List.insertionSort (· ≤ ·) (metDates records) with
    | nil =>
      have := hmemS 0 (by omega)
      rw [hS] at this
      simp at this
    | cons x rest =>
      have hstrict := sortedMetDates_strict records hnodup
      rw [hS] at hstrict
      have hrest_sort := (List.pairwise_cons.mp hstrict).2
      have hrest_gt := (List.pairwise_cons.mp hstrict).1
      have hL : longestStreak records = longestAux rest x 1 1 := by
        simp only [longestStreak, hS]
      rw [hL]
      by_cases hdx : d = x
      · have hchain' : ∀ i : Nat, i < k → x + 1 + (i : Int) ∈ rest := by
          intro i hi
          have hmem := hmemS (i + 1) (by omega)
          rw [hS] at hmem
          have harg : d + ((i + 1 : Nat) : Int) = x + 1 + (i : Int) := by
            push_cast; omega
          rw [harg] at hmem
          rcases List.mem_cons.mp hmem with h | h
          · omega
          · exact h
        have := longestAux_chain_le rest x 1 1 k hrest_sort hrest_gt le_rfl hchain'
        omega
      · have hd0 : d ∈ x :: rest := by
          have := hmemS 0 (by omega)
          rw [hS] at this
          simpa using this
        have hd_rest : d ∈ rest := by
          rcases List.mem_cons.mp hd0 with h | h
          · exact absurd h hdx
          · exact h
        have hxd : x < d := hrest_gt d hd_rest
        have hchain' : ∀ i : Nat, i < k + 1 → d + (i : Int) ∈ rest := by
          intro i hi
          have hmem := hmemS i hi
          rw [hS] at hmem
          rcases List.mem_cons.mp hmem with h | h
          · omega
          · exact h
        exact longestAux_any_chain_le rest x d 1 1 (k + 1) hrest_sort hrest_gt
          le_rfl le_rfl (by omega) hchain'

theorem longest_achieved (records : List (Int × Bool)) :
    ∃ e : Int, ∀ i : Nat, i < longestStreak records →
      isMet records (e + (i : Int)) = true := by
  cases hS : List.insertionSort (· ≤ ·) (metDates records) with
  | nil =>
    refine ⟨0, fun i hi => ?_⟩
    simp only [longestStreak, hS] at hi
    omega
  | cons x rest =>
    have hL : longestStreak records = longestAux rest x 1 1 := by
      simp only [longestStreak, hS]
    have hxmet : isMet records x = true := by
      rw [← mem_sortedMetDates records x, hS]
      exact List.mem_cons_self x rest
    have hmem' : ∀ y ∈ rest, isMet records y = true := by
      intro y hy
      rw [← mem_sortedMetDates records y, hS]
      exact List.mem_cons_of_mem x hy
    rw [hL]
    apply longestAux_achieves records rest x 1 1 hmem'
    · intro i hi
      match i with
      | 0 => simpa using hxmet
    · refine ⟨x, fun i hi => ?_⟩
      match i with
      | 0 => simpa using hxmet

theorem evaluateAux_snd_mem (c : Counters) (now : Nat) :
    ∀ (s : List Rule) (base i : Nat),
      i ∈ (evaluateAux c now s base).2 ↔
        ∃ j : Nat, ∃ h : j < s.length, i = base + j ∧
          (s.get ⟨j, h⟩).unlocked = false ∧
          shouldUnlock c (s.get ⟨j, h⟩).achievement_type
            (s.get ⟨j, h⟩).criteria_value = true := by
  intro s
  induction s with
  | nil =>
    intro base i
    simp [evaluateAux]
  | cons r rs ih =>
    intro base i
    simp only [evaluateAux]
    by_cases hu : r.unlocked
    · rw [if_pos hu]
      simp only []
      constructor
      · intro hmem
        rcases (ih (base + 1) i).mp hmem with ⟨j, hj, hij, hl, hs⟩
        exact ⟨j + 1, by simpa using Nat.succ_lt_succ hj, by omega, by simpa using hl,
          by simpa using hs⟩
      · rintro ⟨j, hj, hij, hl, hs⟩
        match j with
        | 0 =>
          simp only [List.get] at hl
          rw [hu] at hl
          exact absurd hl (by simp)
        | j + 1 =>
          apply (ih (base + 1) i).mpr
          exact ⟨j, by simp only [List.length_cons] at hj; omega, by omega, by simpa using hl, by simpa using hs⟩
    · rw [if_neg hu]
      by_cases hsu : shouldUnlock c r.achievement_type r.criteria_value
      · rw [if_pos hsu]
        simp only [List.mem_cons]
        constructor
        · intro hmem
          rcases hmem with h | hmem
          · exact ⟨0, by simp, by omega, by simpa using hu, by simpa using hsu⟩
          · rcases (ih (base + 1) i).mp hmem with ⟨j, hj, hij, hl, hs⟩
            exact ⟨j + 1, by simpa using Nat.succ_lt_succ hj, by omega,
              by simpa using hl, by simpa using hs⟩
        · rintro ⟨j, hj, hij, hl, hs⟩
          match j with
          | 0 => exact Or.inl (by omega)
          | j + 1 =>
            exact Or.inr ((ih (base + 1) i).mpr
              ⟨j, by simp only [List.length_cons] at hj; omega, by omega, by simpa using hl, by simpa using hs⟩)
      · rw [if_neg hsu]
        constructor
        · intro hmem
          rcases (ih (base + 1) i).mp hmem with ⟨j, hj, hij, hl, hs⟩
          exact ⟨j + 1, by simpa using Nat.succ_lt_succ hj, by omega,
            by simpa using hl, by simpa using hs⟩
        · rintro ⟨j, hj, hij, hl, hs⟩
          match j with
          | 0 =>
            simp only [List.get] at hs
            exact absurd hs (by simpa using hsu)
          | j + 1 =>
            apply (ih (base + 1) i).mpr
            exact ⟨j, by simp only [List.length_cons] at hj; omega, by omega, by simpa using hl, by simpa using hs⟩

theorem evaluate_snd_mem (c : Counters) (now : Nat) (s : List Rule) (i : Nat) :
    i ∈ (evaluate c now s).2 ↔
      ∃ h : i < s.length,
        (s.get ⟨i, h⟩).unlocked = false ∧
        shouldUnlock c (s.get ⟨i, h⟩).achievement_type
          (s.get ⟨i, h⟩).criteria_value = true := by
  rw [evaluate, evaluateAux_snd_mem]
  constructor
  · rintro ⟨j, hj, hij, hl, hs⟩
    have : i = j := by omega
    subst this
    exact ⟨hj, hl, hs⟩
  · rintro ⟨h, hl, hs⟩
    exact ⟨i, h, by omega, hl, hs⟩

theorem getD_map_rule (f : Rule → Rule) :
    ∀ (l : List Rule) (i : Nat), i < l.length →
      (l.map f).getD i defaultRule = f (l.getD i defaultRule) := by
  intro l
  induction l with
  | nil => intro i hi; simp at hi
  | cons r rs ih =>
    intro i hi
    match i with
    | 0 => simp [List.getD]
    | i + 1 =>
      simp only [List.map, List.getD_cons_succ]
      exact ih i (by simp only [List.length_cons] at hi; omega)

theorem getD_default_of_le (l : List Rule) (i : Nat) (hi : l.length ≤ i) :
    l.getD i defaultRule = defaultRule := by
  rw [List.getD_eq_getElem?_getD, List.getElem?_eq_none (by omega)]
  rfl

theorem evaluate_length (c : Counters) (now : Nat) (s : List Rule) :
    (evaluate c now s).1.length = s.length := by
  rw [evaluate_fst, List.length_map]

theorem runPasses_cons (p : Counters × Nat) (ps : List (Counters × Nat)) (s : List Rule) :
    runPasses (p :: ps) s = runPasses ps ((evaluate p.1 p.2 s).1) := by
  simp [runPasses]

theorem runPasses_length (ps : List (Counters × Nat)) :
    ∀ s : List Rule, (runPasses ps s).length = s.length := by
  induction ps with
  | nil => intro s; rfl
  | cons p ps ih =>
    intro s
    rw [runPasses_cons, ih, evaluate_length]

theorem evalRule_of_unlocked (c : Counters) (now : Nat) (r : Rule)
    (h : r.unlocked = true) : evalRule c now r = r := by
  simp [evalRule, h]

theorem evalRule_unlocked_mono (c : Counters) (now : Nat) (r : Rule)
    (h : r.unlocked = true) : (evalRule c now r).unlocked = true := by
  rw [evalRule_of_unlocked c now r h]; exact h

theorem evalRule_progress (c : Counters) (now : Nat) (r : Rule)
    (h : r.unlocked = false) :
    (evalRule c now r).current_progress = newProgress c r.achievement_type := by
  simp only [evalRule, h]
  by_cases hs : shouldUnlock c r.achievement_type r.criteria_value
  · simp [hs]
  · simp [hs]

theorem evalRule_type (c : Counters) (now : Nat) (r : Rule) :
    (evalRule c now r).achievement_type = r.achievement_type := by
  simp only [evalRule]
  by_cases hu : r.unlocked
  · simp [hu]
  · by_cases hs : shouldUnlock c r.achievement_type r.criteria_value
    · simp [hu, hs]
    · simp [hu, hs]

theorem evalRule_unlocks (c : Counters) (now : Nat) (r : Rule)
    (h : r.unlocked = false)
    (hs : shouldUnlock c r.achievement_type r.criteria_value = true) :
    (evalRule c now r).unlocked = true ∧ (evalRule c now r).unlocked_at = some now := by
  simp [evalRule, h, hs]

theorem evaluate_getD (c : Counters) (now : Nat) (s : List Rule) (i : Nat)
    (hi : i < s.length) :
    (evaluate c now s).1.getD i defaultRule = evalRule c now (s.getD i defaultRule) := by
  rw [evaluate_fst]
  exact getD_map_rule (evalRule c now) s i hi

theorem evaluate_unlocked_mono (c : Counters) (now : Nat) (s : List Rule) (i : Nat)
    (h : (s.getD i defaultRule).unlocked = true) :
    ((evaluate c now s).1.getD i defaultRule).unlocked = true := by
  by_cases hi : i < s.length
  · rw [evaluate_getD c now s i hi]
    exact evalRule_unlocked_mono c now _ h
  · rw [getD_default_of_le _ _ (by rw [evaluate_length]; omega)]
    rw [getD_default_of_le _ _ (by omega)] at h
    exact h

theorem runPasses_unlocked_mono (ps : List (Counters × Nat)) :
    ∀ (s : List Rule) (i : Nat), (s.getD i defaultRule).unlocked = true →
      ((runPasses ps s).getD i defaultRule).unlocked = true := by
  induction ps with
  | nil => intro s i h; exact h
  | cons p ps ih =>
    intro s i h
    rw [runPasses_cons]
    exact ih _ i (evaluate_unlocked_mono p.1 p.2 s i h)

theorem get_eq_getD (s : List Rule) (i : Nat) (h : i < s.length) :
    s.get ⟨i, h⟩ = s.getD i defaultRule := by
  rw [List.getD_eq_getElem?_getD, List.getElem?_eq_getElem h]
  rfl

theorem newly_unlocked_after (c : Counters) (now : Nat) (s : List Rule) (i : Nat)
    (h : i ∈ (evaluate c now s).2) :
    ((evaluate c now s).1.getD i defaultRule).unlocked = true := by
  rcases (evaluate_snd_mem c now s i).mp h with ⟨hi, hl, hs⟩
  rw [evaluate_getD c now s i hi]
  rw [get_eq_getD s i hi] at hl hs
  exact (evalRule_unlocks c now _ hl hs).1

/-- Pointwise order on counter snapshots: every counter of the first
snapshot is at most the corresponding counter of the second. -/
def CountersLE (c c' : Counters) : Prop :=
  c.total_applications ≤ c'.total_applications ∧
  c.total_interviews ≤ c'.total_interviews ∧
  c.total_offers ≤ c'.total_offers ∧
  c.today_applications ≤ c'.today_applications ∧
  c.current_streak ≤ c'.current_streak

instance (c c' : Counters) : Decidable (CountersLE c c') := by
  unfold CountersLE; infer_instance

theorem newProgress_mono {c c' : Counters} (h : CountersLE c c') (t : String) :
    newProgress c t ≤ newProgress c' t := by
  obtain ⟨h1, h2, h3, h4, h5⟩ := h
  unfold newProgress
  split_ifs <;> omega

/-- After a pass with counters `c`, every still-locked row's progress is
exactly the counter mapped to its kind. -/
def ProgressInv (c : Counters) (s : List Rule) : Prop :=
  ∀ r ∈ s, r.unlocked = false → r.current_progress = newProgress c r.achievement_type

theorem evaluate_establishes_inv (c : Counters) (now : Nat) (s : List Rule) :
    ProgressInv c ((evaluate c now s).1) := by
  intro r hr hl
  rw [evaluate_fst] at hr
  rcases List.mem_map.mp hr with ⟨r0, _, hr0⟩
  subst hr0
  by_cases hu : r0.unlocked
  · rw [evalRule_of_unlocked c now r0 hu] at hl
    rw [hu] at hl
    exact absurd hl (by simp)
  · rw [evalRule_progress c now r0 (by simpa using hu), evalRule_type]

theorem step_progress_le (c c' : Counters) (n' : Nat) (s : List Rule) (i : Nat)
    (hinv : ProgressInv c s) (hle : CountersLE c c') :
    (s.getD i defaultRule).current_progress ≤
      ((evaluate c' n' s).1.getD i defaultRule).current_progress := by
  by_cases hi : i < s.length
  · rw [evaluate_getD c' n' s i hi]
    set r := s.getD i defaultRule with hr
    have hrmem : r ∈ s := by
      rw [hr, ← get_eq_getD s i hi]
      exact List.get_mem s i hi
    by_cases hu : r.unlocked
    · rw [evalRule_of_unlocked c' n' r hu]
    · rw [evalRule_progress c' n' r (by simpa using hu)]
      rw [hinv r hrmem (by simpa using hu)]
      exact newProgress_mono hle r.achievement_type
  · rw [getD_default_of_le _ _ (by omega),
      getD_default_of_le _ _ (by rw [evaluate_length]; omega)]

theorem runPasses_progress_mono (ps : List (Counters × Nat)) :
    ∀ (c : Counters) (s : List Rule) (i : Nat),
      ProgressInv c s → List.Chain' CountersLE (c :: ps.map Prod.fst) →
      (s.getD i defaultRule).current_progress ≤
        ((runPasses ps s).getD i defaultRule).current_progress := by
  induction ps with
  | nil => intro c s i _ _; exact le_rfl
  | cons p ps ih =>
    intro c s i hinv hchain
    rw [runPasses_cons]
    have hchain' : List.Chain' CountersLE (p.1 :: ps.map Prod.fst) := by
      simp only [List.map_cons] at hchain
      exact (List.chain'_cons.mp hchain).2
    have hle : CountersLE c p.1 := by
      simp only [List.map_cons] at hchain
      exact (List.chain'_cons.mp hchain).1
    calc (s.getD i defaultRule).current_progress
        ≤ ((evaluate p.1 p.2 s).1.getD i defaultRule).current_progress :=
          step_progress_le c p.1 p.2 s i hinv hle
      _ ≤ ((runPasses ps ((evaluate p.1 p.2 s).1)).getD i defaultRule).current_progress :=
          ih p.1 _ i (evaluate_establishes_inv p.1 p.2 s) hchain'

theorem shouldUnlock_iff_known (c : Counters) {t : String} (ht : t ∈ knownKinds)
    (v : Nat) : shouldUnlock c t v = true ↔ v ≤ newProgress c t := by
  fin_cases ht <;> simp [shouldUnlock, newProgress]

theorem shouldUnlock_unknown (c : Counters) {t : String} (ht : t ∉ knownKinds)
    (v : Nat) : shouldUnlock c t v = false := by
  simp only [shouldUnlock]
  split_ifs with h1 h2 h3 h4 h5 h6
  · exact absurd (by rw [h1]; simp [knownKinds]) ht
  · exact absurd (by rw [h2]; simp [knownKinds]) ht
  · exact absurd (by rw [h3]; simp [knownKinds]) ht
  · exact absurd (by rw [h4]; simp [knownKinds]) ht
  · exact absurd (by rw [h5]; simp [knownKinds]) ht
  · exact absurd (by rw [h6]; simp [knownKinds]) ht
  · rfl

theorem newProgress_unknown (c : Counters) {t : String} (ht : t ∉ knownKinds) :
    newProgress c t = 0 := by
  simp only [newProgress]
  split_ifs with h1 h2 h3 h4 h5 h6
  · exact absurd (by rw [h1]; simp [knownKinds]) ht
  · exact absurd (by rw [h2]; simp [knownKinds]) ht
  · exact absurd (by rw [h3]; simp [knownKinds]) ht
  · exact absurd (by rw [h4]; simp [knownKinds]) ht
  · exact absurd (by rw [h5]; simp [knownKinds]) ht
  · exact absurd (by rw [h6]; simp [knownKinds]) ht
  · rfl

theorem evaluate_unlocked_untouched (c : Counters) (now : Nat) (s : List Rule) (i : Nat)
    (h : (s.getD i defaultRule).unlocked = true) :
    (evaluate c now s).1.getD i defaultRule = s.getD i defaultRule := by
  by_cases hi : i < s.length
  · rw [evaluate_getD c now s i hi]
    exact evalRule_of_unlocked c now _ h
  · rw [getD_default_of_le _ _ (by rw [evaluate_length]; omega),
      getD_default_of_le _ _ (by omega)]

theorem runPasses_unlocked_untouched (ps : List (Counters × Nat)) :
    ∀ (s : List Rule) (i : Nat), (s.getD i defaultRule).unlocked = true →
      (runPasses ps s).getD i defaultRule = s.getD i defaultRule := by
  induction ps with
  | nil => intro s i _; rfl
  | cons p ps ih =>
    intro s i h
    rw [runPasses_cons, ih _ i (by rw [evaluate_unlocked_untouched p.1 p.2 s i h]; exact h),
      evaluate_unlocked_untouched p.1 p.2 s i h]

/-- Counter snapshot of the C1 scenario: ten total applications. -/
def demoCounters : Counters :=
  { total_applications := 10, total_interviews := 0, total_offers := 0,
    today_applications := 0, current_streak := 0 }

/-- Locked catalog rule `(application_count, 5)` with no progress yet. -/
def demoRule5 : Rule :=
  { achievement_type := "application_count", criteria_value := 5,
    current_progress := 0, unlocked := false, unlocked_at := none }

/-- Locked catalog rule `(application_count, 10)` with no progress yet. -/
def demoRule10 : Rule :=
  { achievement_type := "application_count", criteria_value := 10,
    current_progress := 0, unlocked := false, unlocked_at := none }

/-- Claim C1: for every locked catalog rule of a known kind, one evaluation
pass sets `current_progress` to the counter mapped to the rule's kind, and
the rule is unlocked, stamped with the evaluation timestamp, and reported
in `newly_unlocked` exactly when that counter reaches the threshold; in the
scenario with `total_applications = 10` and the locked rules
`(application_count, 5)` and `(application_count, 10)`, both rules are
returned in `newly_unlocked` with `current_progress = 10`. -/
theorem c1_evaluator_sets_progress_and_unlocks :
    (∀ (c : Counters) (now : Nat) (r : Rule),
      r.unlocked = false → r.achievement_type ∈ knownKinds →
      (evalRule c now r).current_progress = newProgress c r.achievement_type ∧
      ((evalRule c now r).unlocked = true ↔
        r.criteria_value ≤ newProgress c r.achievement_type) ∧
      (r.criteria_value ≤ newProgress c r.achievement_type →
        (evalRule c now r).unlocked_at = some now)) ∧
    (∀ (c : Counters) (now : Nat) (s : List Rule) (i : Nat) (h : i < s.length),
      (s.get ⟨i, h⟩).achievement_type ∈ knownKinds →
      (i ∈ (evaluate c now s).2 ↔
        (s.get ⟨i, h⟩).unlocked = false ∧
        (s.get ⟨i, h⟩).criteria_value ≤
          newProgress c (s.get ⟨i, h⟩).achievement_type)) ∧
    evaluate demoCounters 7 [demoRule5, demoRule10] =
      ([{ achievement_type := "application_count", criteria_value := 5,
          current_progress := 10, unlocked := true, unlocked_at := some 7 },
        { achievement_type := "application_count", criteria_value := 10,
          current_progress := 10, unlocked := true, unlocked_at := some 7 }],
       [0, 1]) := by
  refine ⟨?_, ?_, by decide⟩
  · intro c now r hl hk
    refine ⟨evalRule_progress c now r hl, ?_, ?_⟩
    · by_cases hs : shouldUnlock c r.achievement_type r.criteria_value
      · have hle := (shouldUnlock_iff_known c hk r.criteria_value).mp hs
        simp [evalRule, hl, hs, hle]
      · have : ¬ r.criteria_value ≤ newProgress c r.achievement_type :=
          fun hc => hs ((shouldUnlock_iff_known c hk r.criteria_value).mpr hc)
        simp [evalRule, hl, hs, this]
    · intro hc
      exact (evalRule_unlocks c now r hl
        ((shouldUnlock_iff_known c hk r.criteria_value).mpr hc)).2
  · intro c now s i h hk
    rw [evaluate_snd_mem c now s i]
    constructor
    · rintro ⟨h', hl, hs⟩
      exact ⟨hl, (shouldUnlock_iff_known c hk _).mp hs⟩
    · rintro ⟨hl, hle⟩
      exact ⟨h, hl, (shouldUnlock_iff_known c hk _).mpr hle⟩

/-- Witness for C1 at the scenario input: the rule `(application_count, 5)`
evaluated under ten total applications gets progress 10 and unlocks. -/
theorem c1_witness :
    (evalRule demoCounters 7 demoRule5).current_progress = 10 ∧
    (evalRule demoCounters 7 demoRule5).unlocked = true := by
  have h := c1_evaluator_sets_progress_and_unlocks.1 demoCounters 7 demoRule5
    rfl (by simp [demoRule5, knownKinds])
  exact ⟨by rw [h.1]; decide, h.2.1.mpr (by decide)⟩

/-- Claim C2: `calculate_current_streak` walks backward from `today`: every
day within the returned count has a goal-met record, the first day past the
count has none (so the walk stops at the first missing or unmet day and
returns the count), a missing or unmet `today` gives 0, and the empty
record set gives 0. -/
theorem c2_current_streak_walks_backward (records : List (Int × Bool)) (today : Int) :
    (∀ i : Nat, i < currentStreak records today →
      isMet records (today - (i : Int)) = true) ∧
    isMet records (today - (currentStreak records today : Int)) = false ∧
    (isMet records today = false → currentStreak records today = 0) ∧
    (records = [] → currentStreak records today = 0) := by
  refine ⟨fun i hi => csf_chain records i today hi, csf_stop records today, ?_, ?_⟩
  · intro h
    rw [currentStreak, currentStreakFrom_eq, if_neg (by simp [h])]
  · intro h
    subst h
    rw [currentStreak, currentStreakFrom_eq, if_neg (by simp [isMet])]

/-- Witness for C2: with a single goal-met record on day 0, the streak from
day 0 is positive and day 0 is indeed goal-met. -/
theorem c2_witness : isMet [((0 : Int), true)] (0 - ((0 : Nat) : Int)) = true := by
  have hcs : currentStreak [((0 : Int), true)] 0 = 1 := by
    rw [currentStreak, currentStreakFrom_eq, currentStreakFrom_eq]
    norm_num [isMet]
  exact (c2_current_streak_walks_backward [((0 : Int), true)] 0).1 0 (by rw [hcs]; omega)

/-- Claim C3: `calculate_longest_streak` returns the length of the longest
run of goal-met dates spaced exactly one day apart: a run of that length
exists, no run is longer (given the at-most-one-record-per-date invariant),
the result is 0 exactly when no record is goal-met, a single isolated met
day yields at least 1, and on records for days 1, 2 and 4 (all met, day 3
absent) with today = day 4 the longest streak is 2 while the current streak
is 1. -/
theorem c3_longest_streak_is_longest_run (records : List (Int × Bool)) :
    (∃ e : Int, ∀ i : Nat, i < longestStreak records →
      isMet records (e + (i : Int)) = true) ∧
    ((records.map (fun r => r.1)).Nodup →
      ∀ (d : Int) (k : Nat),
        (∀ i : Nat, i < k → isMet records (d + (i : Int)) = true) →
        k ≤ longestStreak records) ∧
    ((∀ r ∈ records, r.2 = false) → longestStreak records = 0) ∧
    ((∃ r ∈ records, r.2 = true) → 1 ≤ longestStreak records) ∧
    (longestStreak [((1 : Int), true), (2, true), (4, true)] = 2 ∧
      currentStreak [((1 : Int), true), (2, true), (4, true)] 4 = 1) := by
  refine ⟨longest_achieved records,
    fun hnodup d k hchain => longest_ge_chain records d k hnodup hchain, ?_, ?_, by decide, ?_⟩
  · intro h
    have hmd : metDates records = [] := by
      simp only [metDates, List.map_eq_nil_iff, List.filter_eq_nil_iff]
      intro r hr
      simp [h r hr]
    simp [longestStreak, hmd]
  · rintro ⟨r, hr, hmet⟩
    have hmem : r.1 ∈ metDates records := by
      simp only [metDates, List.mem_map, List.mem_filter]
      exact ⟨r, ⟨hr, by simp [hmet]⟩, rfl⟩
    have hmemS : r.1 ∈ List.insertionSort (· ≤ ·) (metDates records) :=
      (List.perm_insertionSort (· ≤ ·) (metDates records)).mem_iff.mpr hmem
    cases hS : List.insertionSort (· ≤ ·) (metDates records) with
    | nil => rw [hS] at hmemS; simp at hmemS
    | cons x rest =>
      have hL : longestStreak records = longestAux rest x 1 1 := by
        simp only [longestStreak, hS]
      rw [hL]
      exact longestAux_ge_longest rest x 1 1
  · rw [currentStreak, currentStreakFrom_eq, currentStreakFrom_eq]
    norm_num [isMet]

/-- Witness for C3 at the scenario input: the two-day run starting at day 1
bounds the longest streak from below (the date list is duplicate-free). -/
theorem c3_witness :
    (2 : Nat) ≤ longestStreak [((1 : Int), true), (2, true), (4, true)] := by
  apply (c3_longest_streak_is_longest_run [((1 : Int), true), (2, true), (4, true)]).2.1
    (by decide) 1 2
  intro i hi
  interval_cases i <;> decide

/-- Claim C4: under the at-most-one-record-per-date invariant, the longest
streak is at least the current streak, for every record set and every
choice of today. -/
theorem c4_longest_ge_current (records : List (Int × Bool)) (today : Int)
    (hnodup : (records.map (fun r => r.1)).Nodup) :
    currentStreak records today ≤ longestStreak records := by
  rcases Nat.eq_zero_or_pos (currentStreak records today) with hk | hk
  · omega
  · apply longest_ge_chain records
      (today - ((currentStreak records today - 1 : Nat) : Int))
      (currentStreak records today) hnodup
    intro i hi
    have h1 : isMet records
        (today - ((currentStreak records today - 1 - i : Nat) : Int)) = true :=
      csf_chain records (currentStreak records today - 1 - i) today
        (by simp only [currentStreak] at hk ⊢; omega)
    have harg : today - ((currentStreak records today - 1 : Nat) : Int) + (i : Int) =
        today - ((currentStreak records today - 1 - i : Nat) : Int) := by
      omega
    rw [harg]
    exact h1

/-- Witness for C4 at the scenario input: current streak from day 4 is at
most the longest streak on the met days 1, 2, 4. -/
theorem c4_witness :
    currentStreak [((1 : Int), true), (2, true), (4, true)] 4 ≤
      longestStreak [((1 : Int), true), (2, true), (4, true)] :=
  c4_longest_ge_current [((1 : Int), true), (2, true), (4, true)] 4 (by decide)

/-- Claim C5: across every sequence of evaluator passes, a row that is
unlocked is left completely untouched by later passes, the unlocked flag
never transitions back to false, and a row reported in `newly_unlocked` by
one pass is never reported by any later pass. -/
theorem c5_unlock_is_permanent :
    (∀ (ps : List (Counters × Nat)) (s : List Rule) (i : Nat),
      (s.getD i defaultRule).unlocked = true →
      (runPasses ps s).getD i defaultRule = s.getD i defaultRule) ∧
    (∀ (ps : List (Counters × Nat)) (s : List Rule) (i : Nat),
      (s.getD i defaultRule).unlocked = true →
      ((runPasses ps s).getD i defaultRule).unlocked = true) ∧
    (∀ (s0 : List Rule) (ps1 ps2 : List (Counters × Nat)) (c1 c2 : Counters)
       (n1 n2 : Nat) (i : Nat),
      i ∈ (evaluate c1 n1 (runPasses ps1 s0)).2 →
      i ∉ (evaluate c2 n2
        (runPasses ps2 ((evaluate c1 n1 (runPasses ps1 s0)).1))).2) := by
  refine ⟨fun ps s i h => runPasses_unlocked_untouched ps s i h,
    fun ps s i h => runPasses_unlocked_mono ps s i h, ?_⟩
  intro s0 ps1 ps2 c1 c2 n1 n2 i h1 h2
  have hafter : ((evaluate c1 n1 (runPasses ps1 s0)).1.getD i defaultRule).unlocked = true :=
    newly_unlocked_after c1 n1 (runPasses ps1 s0) i h1
  have hstill : ((runPasses ps2
      ((evaluate c1 n1 (runPasses ps1 s0)).1)).getD i defaultRule).unlocked = true :=
    runPasses_unlocked_mono ps2 _ i hafter
  rcases (evaluate_snd_mem c2 n2 _ i).mp h2 with ⟨hi, hl, _⟩
  rw [get_eq_getD _ i hi] at hl
  rw [hstill] at hl
  exact absurd hl (by simp)

/-- Witness for C5: the rule `(application_count, 5)` unlocks on the first
pass under ten applications and is not reported again by a second pass. -/
theorem c5_witness :
    (runPasses [(demoCounters, 3)]
      [{ achievement_type := "application_count", criteria_value := 1,
         current_progress := 1, unlocked := true, unlocked_at := some 0 }]).getD 0 defaultRule =
      [{ achievement_type := "application_count", criteria_value := 1,
         current_progress := 1, unlocked := true, unlocked_at := some 0 }].getD 0 defaultRule ∧
    0 ∉ (evaluate demoCounters 1
      (runPasses [] ((evaluate demoCounters 0 (runPasses [] [demoRule5])).1))).2 := by
  constructor
  · exact c5_unlock_is_permanent.1 [(demoCounters, 3)]
      [{ achievement_type := "application_count", criteria_value := 1,
         current_progress := 1, unlocked := true, unlocked_at := some 0 }] 0 (by decide)
  · exact c5_unlock_is_permanent.2.2 [demoRule5] [] [] demoCounters demoCounters
      0 1 0 (by decide)

/-- Locked rule `(application_count, 100)` used by the C6 counterexample. -/
def demoRule100 : Rule :=
  { achievement_type := "application_count", criteria_value := 100,
    current_progress := 0, unlocked := false, unlocked_at := none }

/-- Counter snapshot with three total applications. -/
def threeAppsCounters : Counters :=
  { total_applications := 3, total_interviews := 0, total_offers := 0,
    today_applications := 0, current_streak := 0 }

/-- Counterexample to C6 as stated: `current_progress` is not monotone over
arbitrary pass sequences.  A first pass with `total_applications = 10`
writes progress 10 into the locked `(application_count, 100)` row; a second
pass whose counter snapshot has dropped to `total_applications = 3` (for
example after applications were deleted) overwrites it with the smaller
value 3. -/
theorem c6_counterexample :
    ((evaluate threeAppsCounters 1
        ((evaluate demoCounters 0 [demoRule100]).1)).1.getD 0 defaultRule).current_progress <
      (((evaluate demoCounters 0 [demoRule100]).1).getD 0 defaultRule).current_progress := by
  decide

/-- Claim C6 amended: over every sequence of evaluator passes whose counter
snapshots are pointwise non-decreasing, the `current_progress` written for
a row by the first pass is never decreased by the later passes. -/
theorem c6_progress_monotone (s0 : List Rule) (c1 : Counters) (n1 : Nat)
    (ps : List (Counters × Nat)) (i : Nat)
    (hmono : List.Chain' CountersLE (c1 :: ps.map Prod.fst)) :
    ((evaluate c1 n1 s0).1.getD i defaultRule).current_progress ≤
      ((runPasses ps ((evaluate c1 n1 s0).1)).getD i defaultRule).current_progress :=
  runPasses_progress_mono ps c1 ((evaluate c1 n1 s0).1) i
    (evaluate_establishes_inv c1 n1 s0) hmono

/-- Witness for C6 at a concrete non-decreasing pass pair: progress written
under three applications does not exceed what a pass with ten writes. -/
theorem c6_witness :
    ((evaluate threeAppsCounters 0 [demoRule100]).1.getD 0 defaultRule).current_progress ≤
      ((runPasses [(demoCounters, 1)]
        ((evaluate threeAppsCounters 0 [demoRule100]).1)).getD 0 defaultRule).current_progress :=
  c6_progress_monotone [demoRule100] threeAppsCounters 0 [(demoCounters, 1)] 0
    (by simp [List.chain'_cons, CountersLE, threeAppsCounters, demoCounters])

/-- A catalog rule with an unrecognised kind and some prior progress. -/
def bogusRule : Rule :=
  { achievement_type := "time_machine", criteria_value := 3,
    current_progress := 5, unlocked := false, unlocked_at := none }

/-- Counterexample to C7 as stated: the evaluator performs no catalog
validation and does not fail fast.  Presented with a catalog containing the
unknown kind `time_machine`, it runs the per-rule evaluation over the whole
list and returns normally: the unknown-kind rule is silently given progress
0 (overwriting its previous progress 5) and stays locked, while the
well-formed second rule is evaluated and unlocked. -/
theorem c7_counterexample :
    evaluate demoCounters 0 [bogusRule, demoRule5] =
      ([{ achievement_type := "time_machine", criteria_value := 3,
          current_progress := 0, unlocked := false, unlocked_at := none },
        { achievement_type := "application_count", criteria_value := 5,
          current_progress := 10, unlocked := true, unlocked_at := some 0 }],
       [1]) := by
  decide

/-- Claim C7 amended: the evaluator does not reject catalogs with unknown
kinds; a locked rule whose kind is not one of the six known strings is
silently skipped — its progress is overwritten with the default 0, it is
never unlocked and never reported in `newly_unlocked` — and the shipped
`ACHIEVEMENT_DEFINITIONS` catalog contains only known kinds, so the case
does not arise for the built-in catalog. -/
theorem c7_unknown_kind_silently_skipped :
    (∀ (c : Counters) (now : Nat) (r : Rule),
      r.unlocked = false → r.achievement_type ∉ knownKinds →
      (evalRule c now r).unlocked = false ∧
      (evalRule c now r).current_progress = 0 ∧
      (evalRule c now r).unlocked_at = r.unlocked_at) ∧
    (∀ (c : Counters) (now : Nat) (s : List Rule) (i : Nat) (h : i < s.length),
      (s.get ⟨i, h⟩).achievement_type ∉ knownKinds → i ∉ (evaluate c now s).2) ∧
    (∀ d ∈ ACHIEVEMENT_DEFINITIONS, d.1 ∈ knownKinds) := by
  refine ⟨?_, ?_, by decide⟩
  · intro c now r hl hk
    have hs := shouldUnlock_unknown c hk r.criteria_value
    have hp := newProgress_unknown c hk
    simp [evalRule, hl, hs, hp]
  · intro c now s i h hk hmem
    rcases (evaluate_snd_mem c now s i).mp hmem with ⟨hi, _, hs⟩
    rw [shouldUnlock_unknown c (by convert hk) _] at hs
    exact absurd hs (by simp)

/-- Witness for C7 at the unknown-kind rule: evaluation leaves it locked
with progress reset to 0. -/
theorem c7_witness :
    (evalRule demoCounters 0 bogusRule).unlocked = false ∧
    (evalRule demoCounters 0 bogusRule).current_progress = 0 := by
  have h := c7_unknown_kind_silently_skipped.1 demoCounters 0 bogusRule rfl (by decide)
  exact ⟨h.1, h.2.1⟩

/-- Claim C8: the motivation message selector agrees everywhere with the
five-row first-match decision table (`start`, `progress`, `goal_met`,
`maintain_streak`, `celebration`), and in particular `daily_goal = 5`,
`today_applications = 5`, `current_streak = 0` selects `goal_met`. -/
theorem c8_motivation_decision_table :
    (∀ s t g : Nat, get_motivation_message s t g = motivationCategorySpec s t g) ∧
    get_motivation_message 0 5 5 = MsgType.goal_met := by
  refine ⟨?_, by decide⟩
  intro s t g
  unfold get_motivation_message motivationCategorySpec
  have hmax : (max 0 ((g : Int) - (t : Int)) = 0) ↔ g ≤ t := by
    constructor
    · intro h
      by_contra hc
      have h1 : (0 : Int) < (g : Int) - (t : Int) := by omega
      rw [max_eq_right (le_of_lt h1)] at h
      omega
    · intro h
      rw [max_eq_left (by omega)]
  split_ifs with h1 h2 h3 h4 h5 h6 h7 <;>
    first
      | rfl
      | (exfalso; rw [hmax] at *; omega)

/-- Claim C9: the backward walk of `calculate_current_streak` terminates —
it is well defined for every finite record set — and the number of its
loop-body executions is the streak plus the final breaking iteration,
hence at most the number of goal-met records plus one. -/
theorem c9_loop_iteration_bound (records : List (Int × Bool)) (today : Int) :
    currentStreakIters records today = currentStreak records today + 1 ∧
    currentStreakIters records today ≤ metRecordCount records + 1 := by
  have heq : currentStreakIters records today = currentStreakFrom records today + 1 :=
    iters_eq_streak_succ records (metCountLe records today) today le_rfl
  have hle : currentStreakFrom records today ≤ metCountLe records today :=
    csf_le_metCountLe records (metCountLe records today) today le_rfl
  have hle2 : metCountLe records today ≤ metRecordCount records :=
    metCountLe_le_metRecordCount records today
  exact ⟨heq, by omega⟩

/-- Claim C10: `get_user_achievements` computes the completion percentage
as unlocked over total times 100 for a non-empty achievement list, and
returns exactly 0 for a user with no achievement rows; the `total > 0`
guard makes the division safe. -/
theorem c10_completion_percentage (achievements : List Rule) :
    (achievements = [] →
      (get_user_achievements achievements).completion_percentage = 0) ∧
    (achievements ≠ [] →
      (get_user_achievements achievements).completion_percentage =
        ((get_user_achievements achievements).total_unlocked : ℚ)
          / ((get_user_achievements achievements).total_achievements : ℚ) * 100) := by
  constructor
  · intro h
    subst h
    simp [get_user_achievements]
  · intro h
    have hpos : 0 < achievements.length := List.length_pos.mpr h
    simp only [get_user_achievements, if_pos hpos]

/-- Witness for C10: one unlocked row out of two gives 50 percent. -/
theorem c10_witness :
    (get_user_achievements
      [{ achievement_type := "application_count", criteria_value := 1,
         current_progress := 1, unlocked := true, unlocked_at := some 0 },
       demoRule5]).completion_percentage = 50 := by
  rw [(c10_completion_percentage
    [{ achievement_type := "application_count", criteria_value := 1,
       current_progress := 1, unlocked := true, unlocked_at := some 0 },
     demoRule5]).2 (by simp)]
  norm_num [get_user_achievements, demoRule5]
